import Mathlib

/-!
# Word wrapping and text style in `gi/text.go`

A shallow embedding of `splitOnSpace`, `wordWrap` and the `TextStyle` methods
from `text.go`, and of the `Actions` name table from
`oswin/window/actions_string.go`, with their properties stated over it.

Modelling conventions.

* A Go `string` (taken to be valid UTF-8) is modelled as the list of its
  runes (`List Char`).  The
  source only ever cuts a string at rune boundaries (`for i, c := range x`
  yields the byte offset of each rune, and `x[pi:i]` is cut at such
  offsets), so the byte offset `i` of the source is modelled by the rune
  index; `i > 0` holds for exactly the same iterations in both.
* `measureStringer.MeasureString` returns a `float64` width; the model takes
  the measure as an arbitrary function into a type `α` with a decidable
  test `<`, of which no law is assumed, so that `w > width` is `width < w`
  in `α`.  The type `F64` (NaN or a number) is an instance on which the
  test behaves as on `float64`: every comparison with NaN is false.
  Properties that need the laws of an order say so in their binders.
* An index out of range (a Go run-time panic) is the result `none`.
* A method with a pointer receiver is a function from the receiver before
  the call to the receiver after it.
-/

namespace Gi

/-- A Go string, as the list of its runes. -/
abbrev Str := List Char

/-! ## Library functions used by the source -/

/-- Modelled from the spec: the "Unicode whitespace definition" used to
classify a character, which is `unicode.IsSpace` of the Go standard library
(not under `src/`): in Latin-1 the characters `\t \n \v \f \r`, space,
U+0085 and U+00A0; above Latin-1 the code points with the `White_Space`
property. -/
def isSpace (c : Char) : Bool :=
  let r := c.toNat
  if r ≤ 0xFF then
    r == 0x09 || r == 0x0A || r == 0x0B || r == 0x0C || r == 0x0D || r == 0x20
      || r == 0x85 || r == 0xA0
  else
    r == 0x1680 || (0x2000 ≤ r && r ≤ 0x200A) || r == 0x2028 || r == 0x2029
      || r == 0x202F || r == 0x205F || r == 0x3000

/-- Cut a string at every character satisfying `p`, dropping those
characters; the result is never empty (`splitAt p [] = [[]]`). -/
def splitAtP (p : Char → Bool) : Str → List Str
  | [] => [[]]
  | c :: cs =>
    if p c then [] :: splitAtP p cs
    else
      match splitAtP p cs with
      | [] => [[c]]
      | t :: ts => (c :: t) :: ts

/-- Modelled from the spec: "split `text` on explicit newline characters into
logical lines", which is `strings.Split(s, "\n")` of the Go standard library
(not under `src/`). -/
def Split (s : Str) : List Str := splitAtP (fun c => c == '\n') s

/-- Modelled from the spec: "trim leading/trailing whitespace", which is
`strings.TrimSpace` of the Go standard library (not under `src/`): all
leading and all trailing Unicode whitespace is removed. -/
def TrimSpace (s : Str) : Str := (s.dropWhile isSpace).rdropWhile isSpace

/-- The Go expression `strings.Join(lines, "\n")`. -/
def joinLines : List Str → Str
  | [] => []
  | [l] => l
  | l :: ls => l ++ '\n' :: joinLines ls

/-! ## `splitOnSpace` -/

/-- The loop of `splitOnSpace`: `x` is the whole string, the list argument is
the part of `x` still to be ranged over, `i` the index of its first rune,
`pi` and `ps` the loop variables, `result` the tokens appended so far.  When
the range is exhausted the remainder `x[pi:]` is appended. -/
def splitLoop (x : Str) : Str → Nat → Nat → Bool → List Str → List Str
  | [], _, pi, _, result => result ++ [x.drop pi]
  | c :: cs, i, pi, ps, result =>
    let s := isSpace c
    if s != ps && decide (i > 0) then
      splitLoop x cs (i + 1) i s (result ++ [(x.take i).drop pi])
    else
      splitLoop x cs (i + 1) pi s result

/-- The function `splitOnSpace(x string) []string`. -/
def splitOnSpace (x : Str) : List Str := splitLoop x x 0 0 false []

/-! ## `wordWrap` -/

/-- A `float64` as far as the comparisons `>` and `<=` see it: NaN, or a
number (integers are enough for the examples here). -/
inductive F64 where
  | nan
  | num (n : Int)

/-- The comparison `a < b` of `float64`, false when either side is NaN. -/
def F64.lt : F64 → F64 → Bool
  | .num a, .num b => decide (a < b)
  | _, _ => false

/-- The comparison `a <= b` of `float64`, false when either side is NaN. -/
def F64.le : F64 → F64 → Bool
  | .num a, .num b => decide (a ≤ b)
  | _, _ => false

instance : LT F64 := ⟨fun a b => F64.lt a b = true⟩

instance : LE F64 := ⟨fun a b => F64.le a b = true⟩

instance : DecidableRel (α := F64) (· < ·) :=
  fun a b => inferInstanceAs (Decidable (F64.lt a b = true))

instance : DecidableRel (α := F64) (· ≤ ·) :=
  fun a b => inferInstanceAs (Decidable (F64.le a b = true))

section Wrap

variable {α : Type} [LT α] [DecidableRel (α := α) (· < ·)]

/-- The inner loop of `wordWrap`, `for i := 0; i < len(fields); i += 2`,
over the fields from index `i` on, with the loop variable `x` and the global
`result`.  It returns the final `x` and `result`, or `none` when
`fields[i+1]` is read out of range. -/
def packLoop (m : Str → α) (width : α) : List Str → Str → List Str → Option (Str × List Str)
  | [], x, result => some (x, result)
  | [f], x, result =>
    if width < m (x ++ f) ∧ x = [] then some ([], result ++ [f]) else none
  | f :: sep :: rest, x, result =>
    if width < m (x ++ f) then
      if x = [] then packLoop m width rest [] (result ++ [f])
      else packLoop m width rest (f ++ sep) (result ++ [x])
    else packLoop m width rest (x ++ f ++ sep) result

/-- The fields `wordWrap` packs for one logical line: `splitOnSpace(line)`,
with one empty string appended when the count is odd. -/
def lineFields (line : Str) : List Str :=
  let fields := splitOnSpace line
  if fields.length % 2 = 1 then fields ++ [[]] else fields

/-- The outer loop of `wordWrap` over the logical lines still to be
processed, threading the global `result` (before the final trimming). -/
def wrapLines (m : Str → α) (width : α) : List Str → List Str → Option (List Str)
  | [], result => some result
  | line :: rest, result =>
    match packLoop m width (lineFields line) [] result with
    | none => none
    | some (x, result) =>
      wrapLines m width rest (if x ≠ [] then result ++ [x] else result)

/-- The function `wordWrap(m measureStringer, s string, width float64) []string`. -/
def wordWrap (m : Str → α) (s : Str) (width : α) : Option (List Str) :=
  (wrapLines m width (Split s) []).map (fun result => result.map TrimSpace)

end Wrap

/-! ## Notions used to state the properties -/

/-- The whitespace-separated words of a string: its maximal runs of
non-whitespace characters, in order. -/
def words (s : Str) : List Str := (splitAtP isSpace s).filter (fun t => t ≠ [])

/-- The measure "width = 10 × (number of characters)". -/
def tenPerChar (s : Str) : Int := 10 * s.length

/-- Join the string `cur`, whose last character has whitespace class `b`, to
the front of a list of runs: it merges with the first run when that run is of
the same class. -/
def glue (b : Bool) (cur : Str) : List Str → List Str
  | (d :: t) :: ts => if b = isSpace d then (cur ++ d :: t) :: ts else cur :: (d :: t) :: ts
  | _ => [cur]

/-- The maximal runs of same-class characters of a string (whitespace or
not), in order; `runs [] = []`. -/
def runs : Str → List Str
  | [] => []
  | c :: cs => glue (isSpace c) [c] (runs cs)

/-- The tokens `ts` alternate in class starting with class `b` (`true` is
whitespace): every token consists of characters of its class only, and only
the last token may be empty. -/
def Alt : Bool → List Str → Prop
  | _, [] => True
  | b, t :: ts => (t ≠ [] ∨ ts = []) ∧ (∀ c ∈ t, isSpace c = b) ∧ Alt (!b) ts

/-- The word tokens of a token list: the non-empty tokens that do not start
with whitespace. -/
def wordToks (ts : List Str) : List Str :=
  ts.filter (fun t => match t with | [] => false | c :: _ => !isSpace c)

/-- A string that is not empty and neither begins nor ends with whitespace. -/
def Tight (l : Str) : Prop :=
  l ≠ [] ∧ (∀ c ∈ l.head?, isSpace c = false) ∧ (∀ c ∈ l.getLast?, isSpace c = false)

/-- A measure that is not monotone: a string ending in `b` is 10 wide, any
other string 0 wide. -/
def wideAfterB (s : Str) : Int := if s.getLast? = some 'b' then 10 else 0

/-- A measure that returns NaN for every string. -/
def nanMeasure (_ : Str) : F64 := F64.nan

section WrapDefs

variable {α : Type} [LT α] [DecidableRel (α := α) (· < ·)]

/-- The lines one logical line contributes to `result` (before trimming):
what the inner loop appends, then the final `x` when it is not empty. -/
def lineOut (m : Str → α) (width : α) (line : Str) : List Str :=
  match packLoop m width (lineFields line) [] [] with
  | some (x, out) => if x ≠ [] then out ++ [x] else out
  | none => []

/-- The state of the accumulator `x` between two iterations of the packing
loop on a line that does not begin with whitespace: it is empty, or it is a
tight string `L` followed by a whitespace separator, where `L` is a single
word or was measured at most `width`. -/
def Pending (m : Str → α) (width : α) (x : Str) : Prop :=
  x = [] ∨ ∃ L sp, x = L ++ sp ∧ Tight L ∧ (∀ c ∈ sp, isSpace c = true) ∧ '\n' ∉ x ∧
    (¬ width < m L ∨ ∀ c ∈ L, isSpace c = false)

end WrapDefs

/-! ## `TextStyle` -/

/-- The Go type `TextAlign int`. -/
abbrev TextAlign := Int

/-- The constant `TextAlignLeft` (`iota` = 0). -/
def TextAlignLeft : TextAlign := 0

/-- The constant `TextAlignRight`. -/
def TextAlignRight : TextAlign := 1

/-- The constant `TextAlignCenter`. -/
def TextAlignCenter : TextAlign := 2

/-- The constant `TextAlignJustify`. -/
def TextAlignJustify : TextAlign := 3

/-- The struct `TextStyle`.  A `float64` field holds a rational number: the
source only stores the constant `1.0` in such a field or copies a value into
it, and never computes with it. -/
structure TextStyle where
  /-- how to align text -/
  Align : TextAlign
  /-- specified height of a line of text, 0 = normal -/
  LineHeight : ℚ
  /-- spacing between lines -/
  LineSpacing : ℚ
  /-- how much to indent the first line in a paragraph -/
  Indent : ℚ
  /-- spacing between characters and lines -/
  LetterSpacing : ℚ
  /-- extra space to add between words -/
  WordSpacing : ℚ
  /-- wrap text within a given size -/
  WordWrap : Bool

/-- The method `(p *TextStyle) Defaults()`; the result is the style `*p`
after the call. -/
def TextStyle.Defaults (p : TextStyle) : TextStyle :=
  let p := { p with WordWrap := false }
  let p := { p with Align := TextAlignLeft }
  let p := { p with LineSpacing := 1 }
  { p with LetterSpacing := 1 }

/-- Modelled from the spec: the property source of a node (`Node2DBase`,
not under `src/`), "read-only, keyed lookup against a generic
style/attribute store": each getter returns the value and whether the key
was found. -/
structure Node2DBase where
  /-- the getter `getBool(key) -> (value, found)` -/
  GiPropBool : Str → Bool × Bool
  /-- the getter `getNumber(key) -> (value, found)` -/
  PropNumber : Str → ℚ × Bool
  /-- the getter `getEnumString(key) -> (value, found)` -/
  PropEnum : Str → Str × Bool

/-- The value of `al` after `var al TextAlign = -1` and the `switch es` over
the short-hand codes in `SetFromNode`. -/
def shortHand (es : Str) : TextAlign :=
  if es = "left".toList then TextAlignLeft
  else if es = "start".toList then TextAlignLeft
  else if es = "center".toList then TextAlignCenter
  else if es = "right".toList then TextAlignRight
  else if es = "end".toList then TextAlignRight
  else -1

/-- The method `(pt *TextStyle) SetFromNode(g *Node2DBase)`; the result is
the style `*pt` after the call.  The generated function `StringToTextAlign`
is not under `src/` and is a parameter: it returns a value and whether the
error is non-nil.  The call `log.Print(err)` leaves the style as it is. -/
def TextStyle.SetFromNode (StringToTextAlign : Str → TextAlign × Bool) (pt : TextStyle)
    (g : Node2DBase) : TextStyle :=
  let pt :=
    match g.GiPropBool "word-wrap".toList with
    | (wr, true) => { pt with WordWrap := wr }
    | (_, false) => pt
  let pt :=
    match g.PropNumber "line-spacing".toList with
    | (sz, true) => { pt with LineSpacing := sz }
    | (_, false) => pt
  match g.PropEnum "text-align".toList with
  | (es, true) =>
    let al : TextAlign := shortHand es
    if al = -1 then
      match StringToTextAlign es with
      | (i, true) => { pt with Align := i }
      | (_, false) => pt
    else { pt with Align := al }
  | (_, false) => pt

/-- A node on which only `text-align` is set, to the string `es`. -/
def alignOnlyNode (es : Str) : Node2DBase where
  GiPropBool := fun _ => (false, false)
  PropNumber := fun _ => (0, false)
  PropEnum := fun key => if key = "text-align".toList then (es, true) else ([], false)

/-- A node on which no property is set. -/
def emptyNode : Node2DBase where
  GiPropBool := fun _ => (false, false)
  PropNumber := fun _ => (0, false)
  PropEnum := fun _ => ([], false)

/-- The zero value of `TextStyle`. -/
def zeroStyle : TextStyle := ⟨0, 0, 0, 0, 0, 0, false⟩

/-! ## `Actions` (`oswin/window/actions_string.go`) -/

/-- The Go type `Actions` (an `int`, declared outside `src/`). -/
abbrev Actions := Int

/-- The constant `_Actions_name`. -/
def _Actions_name : Str := "CloseIconifyResizeMoveFocusDeFocusActionsN".toList

/-- The table `_Actions_index`. -/
def _Actions_index : List Nat := [0, 5, 12, 18, 22, 27, 34, 42]

/-- The slice `_Actions_name[_Actions_index[j]:_Actions_index[j+1]]`. -/
def actionsName (j : Nat) : Str :=
  (_Actions_name.take (_Actions_index.getD (j + 1) 0)).drop (_Actions_index.getD j 0)

/-- The library call `strconv.FormatInt(n, 10)`: the decimal digits of `n`,
with a leading `-` when `n` is negative. -/
def FormatInt (n : Int) : Str := (toString n).toList

/-- The method `(i Actions) String() string`. -/
def Actions.String (i : Actions) : Str :=
  if i < 0 ∨ i ≥ ((_Actions_index.length - 1 : Nat) : Int) then
    "Actions(".toList ++ FormatInt i ++ ")".toList
  else actionsName i.toNat

/-- The error `fmt.Errorf("String %v is not a valid option for type Actions", s)`. -/
def actionsError (s : Str) : Str :=
  "String ".toList ++ s ++ " is not a valid option for type Actions".toList

/-- The loop of `FromString`, `for j := 0; j < len(_Actions_index)-1; j++`,
with `n` iterations left from index `j`; it returns the receiver `*i` after
the call and the error (`none` is `nil`). -/
def fromStringLoop (s : Str) (i : Actions) : Nat → Nat → Actions × Option Str
  | 0, _ => (i, some (actionsError s))
  | n + 1, j =>
    if s = actionsName j then ((j : Int), none)
    else fromStringLoop s i n (j + 1)

/-- The method `(i *Actions) FromString(s string) error`: the receiver `*i`
after the call, and the error returned. -/
def Actions.FromString (i : Actions) (s : Str) : Actions × Option Str :=
  fromStringLoop s i (_Actions_index.length - 1) 0

/-! ## The tokenizer -/

theorem runs_cons_head (c : Char) (cs : Str) : ∃ t ts, runs (c :: cs) = (c :: t) :: ts := by
  simp only [runs]
  generalize runs cs = R
  match R with
  | [] => exact ⟨[], [], rfl⟩
  | [] :: ts => exact ⟨[], [], rfl⟩
  | (d :: t) :: ts =>
    simp only [glue]
    split
    · exact ⟨d :: t, ts, rfl⟩
    · exact ⟨[], (d :: t) :: ts, rfl⟩

theorem glue_glue (b : Bool) (cur : Str) (c : Char) (R : List Str) (h : isSpace c = b) :
    glue b cur (glue (isSpace c) [c] R) = glue (isSpace c) (cur ++ [c]) R := by
  subst h
  match R with
  | [] => simp [glue]
  | [] :: ts => simp [glue]
  | (d :: t) :: ts =>
    by_cases hd : isSpace c = isSpace d
    · simp [glue, hd]
    · simp [glue, hd]

theorem glue_ne (b : Bool) (cur : Str) (c : Char) (cs : Str) (h : isSpace c ≠ b) :
    glue b cur (runs (c :: cs)) = cur :: runs (c :: cs) := by
  obtain ⟨t, ts, e⟩ := runs_cons_head c cs
  rw [e]
  simp only [glue]
  rw [if_neg (fun h2 => h h2.symm)]

theorem splitLoop_eq (rest : Str) : ∀ (pre : Str) (pi : Nat) (ps : Bool) (result : List Str),
    pre ≠ [] → pi ≤ pre.length →
    splitLoop (pre ++ rest) rest pre.length pi ps result
      = result ++ glue ps (pre.drop pi) (runs rest) := by
  induction rest with
  | nil =>
    intro pre pi ps result _ _
    simp [splitLoop, runs, glue]
  | cons c cs ih =>
    intro pre pi ps result hne hpi
    have hlen : 0 < pre.length := List.length_pos.mpr hne
    have hx : pre ++ c :: cs = (pre ++ [c]) ++ cs := by simp
    have hl : pre.length + 1 = (pre ++ [c]).length := by simp
    by_cases hc : isSpace c = ps
    · have step : splitLoop (pre ++ c :: cs) (c :: cs) pre.length pi ps result
          = splitLoop (pre ++ c :: cs) cs (pre.length + 1) pi (isSpace c) result := by
        simp [splitLoop, hc]
      rw [step, hx, hl, ih (pre ++ [c]) pi (isSpace c) result (by simp) (by simp; omega)]
      rw [List.drop_append_of_le_length hpi]
      simp only [runs]
      rw [glue_glue ps _ c _ hc]
    · have step : splitLoop (pre ++ c :: cs) (c :: cs) pre.length pi ps result
          = splitLoop (pre ++ c :: cs) cs (pre.length + 1) pre.length (isSpace c)
              (result ++ [((pre ++ c :: cs).take pre.length).drop pi]) := by
        simp [splitLoop, hc, hlen]
      rw [step, List.take_left' rfl, hx, hl,
        ih (pre ++ [c]) pre.length (isSpace c) _ (by simp) (by simp)]
      rw [glue_ne ps _ c cs hc]
      simp [runs]

/-- On a non-empty string `splitOnSpace` returns the maximal runs. -/
theorem splitOnSpace_cons (c : Char) (cs : Str) : splitOnSpace (c :: cs) = runs (c :: cs) := by
  have step : splitOnSpace (c :: cs) = splitLoop ([c] ++ cs) cs [c].length 0 (isSpace c) [] := by
    simp [splitOnSpace, splitLoop]
  rw [step, splitLoop_eq cs [c] 0 (isSpace c) [] (by simp) (by simp)]
  simp [runs]

theorem splitOnSpace_nil : splitOnSpace [] = [[]] := rfl

/-- The runs of a string concatenate to the string. -/
theorem flatten_runs : ∀ x : Str, (runs x).flatten = x
  | [] => rfl
  | [c] => by simp [runs, glue]
  | c :: d :: cs => by
    have ih := flatten_runs (d :: cs)
    obtain ⟨t, ts, e⟩ := runs_cons_head d cs
    have e2 : runs (c :: d :: cs) = glue (isSpace c) [c] (runs (d :: cs)) := rfl
    rw [e2]
    rw [e] at ih ⊢
    simp only [glue]
    split
    · simpa using ih
    · simpa using ih

/-- The runs of a non-empty string alternate in class, starting with the
class of its first character, and none of them is empty. -/
theorem alt_runs : ∀ (c : Char) (cs : Str), Alt (isSpace c) (runs (c :: cs) ++ [[]])
  | c, [] => by simp [runs, glue, Alt]
  | c, d :: cs => by
    have ih := alt_runs d cs
    obtain ⟨t, ts, e⟩ := runs_cons_head d cs
    rw [e] at ih
    simp only [runs] at e ⊢
    rw [e]
    simp only [List.cons_append, Alt] at ih
    obtain ⟨-, h2, h3⟩ := ih
    by_cases hd : isSpace c = isSpace d
    · simp only [glue, hd, if_true, List.cons_append, Alt]
      refine ⟨Or.inl (by simp), ?_, h3⟩
      intro ch hch
      simp only [List.singleton_append, List.mem_cons] at hch
      rcases hch with rfl | hch
      · exact hd
      · exact h2 ch (by simpa using hch)
    · simp only [glue, hd, if_false, List.cons_append, Alt]
      have hnot : (!isSpace c) = isSpace d := by
        cases hc : isSpace c <;> cases hdd : isSpace d <;> simp_all
      refine ⟨Or.inl (by simp), by simp, Or.inl (by simp), ?_, ?_⟩
      · rw [hnot]; exact h2
      · rw [hnot]; exact h3

theorem alt_front : ∀ (A B : List Str) (b : Bool), Alt b (A ++ B) → Alt b A
  | [], _, _, _ => by simp [Alt]
  | t :: A, B, b, h => by
    simp only [List.cons_append, Alt] at h ⊢
    obtain ⟨h1, h2, h3⟩ := h
    refine ⟨?_, h2, alt_front A B _ h3⟩
    rcases h1 with h1 | h1
    · exact Or.inl h1
    · right
      cases A with
      | nil => rfl
      | cons a A => simp at h1

theorem alt_drop_two (b : Bool) (f sep : Str) (rest : List Str) (h : Alt b (f :: sep :: rest)) :
    f ≠ [] ∧ (∀ c ∈ f, isSpace c = b) ∧ (∀ c ∈ sep, isSpace c = !b) ∧ Alt b rest := by
  simp only [Alt, Bool.not_not] at h
  obtain ⟨h1, h2, -, h4, h5⟩ := h
  refine ⟨?_, h2, h4, h5⟩
  rcases h1 with h1 | h1
  · exact h1
  · simp at h1

/-- A non-empty string of one class is its own single run. -/
theorem runs_homog (b : Bool) : ∀ (c : Char) (t : Str), (∀ d ∈ c :: t, isSpace d = b) →
    runs (c :: t) = [c :: t]
  | c, [] => by simp [runs, glue]
  | c, d :: t => by
    intro h
    have ih := runs_homog b d t (fun e he => h e (List.mem_cons_of_mem _ he))
    have hc : isSpace c = b := h c (by simp)
    have hd : isSpace d = b := h d (by simp)
    simp only [runs] at ih ⊢
    rw [ih]
    simp [glue, hc, hd]

/-! ## Splitting, joining, trimming and the words of a string -/

theorem isSpace_newline : isSpace '\n' = true := by decide

theorem splitAtP_ne_nil (p : Char → Bool) : ∀ s : Str, splitAtP p s ≠ []
  | [] => by simp [splitAtP]
  | c :: cs => by
    simp only [splitAtP]
    split
    · simp
    · split <;> simp

theorem splitAtP_append_cons (p : Char → Bool) (c : Char) (hc : p c = true) (b : Str) :
    ∀ a : Str, splitAtP p (a ++ c :: b) = splitAtP p a ++ splitAtP p b
  | [] => by simp [splitAtP, hc]
  | d :: a => by
    have ih := splitAtP_append_cons p c hc b a
    by_cases hd : p d = true
    · simp [splitAtP, hd, ih]
    · obtain ⟨t, ts, e⟩ := List.exists_cons_of_ne_nil (splitAtP_ne_nil p a)
      simp [splitAtP, hd, ih, e]

theorem splitAtP_none (p : Char → Bool) : ∀ t : Str, (∀ c ∈ t, p c = false) → splitAtP p t = [t]
  | [], _ => rfl
  | c :: t, h => by
    have ih := splitAtP_none p t (fun d hd => h d (List.mem_cons_of_mem _ hd))
    simp [splitAtP, h c (by simp), ih]

theorem Split_append_newline (a b : Str) : Split (a ++ '\n' :: b) = Split a ++ Split b :=
  splitAtP_append_cons _ '\n' (by simp) b a

theorem Split_no_newline (s : Str) (h : '\n' ∉ s) : Split s = [s] := by
  apply splitAtP_none
  intro c hc
  simp only [beq_eq_false_iff_ne, ne_eq]
  rintro rfl
  exact h hc

theorem joinLines_cons (l : Str) (ls : List Str) (h : ls ≠ []) :
    joinLines (l :: ls) = l ++ '\n' :: joinLines ls := by
  cases ls with
  | nil => exact absurd rfl h
  | cons a ls => rfl

theorem words_nil : words [] = [] := by simp [words, splitAtP]

theorem words_append_space (a b : Str) (c : Char) (hc : isSpace c = true) :
    words (a ++ c :: b) = words a ++ words b := by
  simp [words, splitAtP_append_cons isSpace c hc]

theorem words_cons_space (c : Char) (b : Str) (hc : isSpace c = true) :
    words (c :: b) = words b := by
  have h := words_append_space [] b c hc
  simpa [words_nil] using h

theorem words_spaces_append : ∀ (t y : Str), (∀ c ∈ t, isSpace c = true) →
    words (t ++ y) = words y
  | [], _, _ => rfl
  | c :: t, y, h => by
    rw [List.cons_append, words_cons_space c _ (h c (by simp))]
    exact words_spaces_append t y (fun d hd => h d (List.mem_cons_of_mem _ hd))

theorem words_word (t : Str) (hne : t ≠ []) (h : ∀ c ∈ t, isSpace c = false) : words t = [t] := by
  simp [words, splitAtP_none isSpace t h, hne]

theorem words_word_append (t y : Str) (hne : t ≠ []) (h : ∀ c ∈ t, isSpace c = false)
    (hy : ∀ c ∈ y.head?, isSpace c = true) : words (t ++ y) = t :: words y := by
  cases y with
  | nil => simp [words_word t hne h, words_nil]
  | cons c y =>
    have hc : isSpace c = true := hy c (by simp)
    rw [words_append_space t y c hc, words_cons_space c y hc, words_word t hne h]
    rfl

theorem words_append_spaces (y t : Str) (h : ∀ c ∈ t, isSpace c = true) :
    words (y ++ t) = words y := by
  cases t with
  | nil => simp
  | cons c t =>
    rw [words_append_space y t c (h c (by simp))]
    have := words_spaces_append t [] (fun d hd => h d (List.mem_cons_of_mem _ hd))
    simp only [List.append_nil] at this
    simp [this, words_nil]

theorem words_TrimSpace (s : Str) : words (TrimSpace s) = words s := by
  have h1 : ∀ y : Str, words (y.dropWhile isSpace) = words y := by
    intro y
    induction y with
    | nil => rfl
    | cons c y ih =>
      by_cases hc : isSpace c = true
      · simp [List.dropWhile_cons, hc, ih, words_cons_space c y hc]
      · simp [List.dropWhile_cons, hc]
  have h2 : ∀ y : Str, words (y.rdropWhile isSpace) = words y := by
    intro y
    induction y using List.reverseRecOn with
    | nil => rfl
    | append_singleton y c ih =>
      by_cases hc : isSpace c = true
      · rw [List.rdropWhile_concat_pos _ _ _ hc, ih, words_append_spaces y [c] (by simpa using hc)]
      · rw [List.rdropWhile_concat_neg _ _ _ hc]
  simp only [TrimSpace]
  rw [h2, h1]

theorem joinLines_Split : ∀ s : Str, joinLines (Split s) = s
  | [] => rfl
  | c :: cs => by
    have ih := joinLines_Split cs
    have hne : Split cs ≠ [] := splitAtP_ne_nil _ cs
    by_cases hc : c = '\n'
    · subst hc
      have e : Split ('\n' :: cs) = [] :: Split cs := by simp [Split, splitAtP]
      rw [e, joinLines_cons _ _ hne, ih]
      rfl
    · obtain ⟨t, ts, e⟩ := List.exists_cons_of_ne_nil hne
      have e2 : Split (c :: cs) = (c :: t) :: ts := by
        simp only [Split] at e
        simp [Split, splitAtP, hc, e]
      rw [e2]
      rw [e] at ih
      cases ts with
      | nil =>
        simp only [joinLines] at ih ⊢
        rw [ih]
      | cons a ts =>
        simp only [joinLines] at ih ⊢
        rw [← ih]
        rfl

theorem words_joinLines : ∀ ls : List Str, words (joinLines ls) = ls.flatMap words
  | [] => by simp [joinLines, words_nil]
  | [l] => by simp [joinLines]
  | l :: a :: ls => by
    have ih := words_joinLines (a :: ls)
    rw [joinLines_cons l (a :: ls) (by simp), words_append_space _ _ _ isSpace_newline, ih]
    simp

/-- The words of a text are the words of its logical lines, in order. -/
theorem words_eq_flatMap_Split (s : Str) : words s = (Split s).flatMap words := by
  rw [← words_joinLines, joinLines_Split]

theorem wordToks_append (A B : List Str) : wordToks (A ++ B) = wordToks A ++ wordToks B := by
  simp [wordToks]

/-- The words of a concatenation of alternating tokens are its word tokens. -/
theorem words_flatten : ∀ (ts : List Str) (b : Bool), Alt b ts → words ts.flatten = wordToks ts
  | [], _, _ => by simp [wordToks, words_nil]
  | t :: ts, b, h => by
    simp only [Alt] at h
    obtain ⟨h1, h2, h3⟩ := h
    have ih := words_flatten ts (!b) h3
    cases b with
    | true =>
      rw [List.flatten_cons, words_spaces_append t _ h2, ih]
      cases t with
      | nil => simp [wordToks]
      | cons c t => simp [wordToks, h2 c (by simp)]
    | false =>
      cases t with
      | nil =>
        rcases h1 with h1 | h1
        · exact absurd rfl h1
        · subst h1; simp [wordToks, words_nil]
      | cons c t =>
        have hy : ∀ d ∈ ts.flatten.head?, isSpace d = true := by
          cases ts with
          | nil => simp
          | cons u ts =>
            simp only [Alt, Bool.not_false] at h3
            obtain ⟨g1, g2, -⟩ := h3
            cases u with
            | nil =>
              rcases g1 with g1 | g1
              · exact absurd rfl g1
              · subst g1; simp
            | cons e u =>
              intro d hd
              simp only [List.flatten_cons, List.cons_append, List.head?_cons,
                Option.mem_def, Option.some.injEq] at hd
              subst hd
              exact g2 e (by simp)
        rw [List.flatten_cons, words_word_append (c :: t) _ (by simp) h2 hy, ih]
        simp [wordToks, h2 c (by simp)]

/-! ## The packing loop -/

section PackLemmas

variable {α : Type} [LT α] [DecidableRel (α := α) (· < ·)] (m : Str → α) (width : α)

/-- The loop only ever appends to `result`. -/
theorem packLoop_acc : ∀ (ts : List Str) (x : Str) (res : List Str),
    packLoop m width ts x res
      = (packLoop m width ts x []).map (fun p => (p.1, res ++ p.2))
  | [], x, res => by simp [packLoop]
  | [f], x, res => by
    simp only [packLoop]
    split <;> simp
  | f :: sep :: rest, x, res => by
    simp only [packLoop]
    split
    · split
      · rw [packLoop_acc rest [] (res ++ [f]), packLoop_acc rest [] ([] ++ [f])]
        simp [Option.map_map, Function.comp_def]
      · rw [packLoop_acc rest (f ++ sep) (res ++ [x]), packLoop_acc rest (f ++ sep) ([] ++ [x])]
        simp [Option.map_map, Function.comp_def]
    · exact packLoop_acc rest (x ++ f ++ sep) res

/-- On an even number of fields the loop never reads out of range. -/
theorem packLoop_total : ∀ (ts : List Str) (x : Str), ts.length % 2 = 0 →
    ∃ x1 out, packLoop m width ts x [] = some (x1, out)
  | [], x, _ => ⟨x, [], rfl⟩
  | [f], x, h => by simp at h
  | f :: sep :: rest, x, h => by
    have hr : rest.length % 2 = 0 := by
      simp only [List.length_cons] at h
      omega
    simp only [packLoop]
    split
    · split
      · obtain ⟨x1, out, e⟩ := packLoop_total rest [] hr
        rw [packLoop_acc, e]
        exact ⟨_, _, rfl⟩
      · obtain ⟨x1, out, e⟩ := packLoop_total rest (f ++ sep) hr
        rw [packLoop_acc, e]
        exact ⟨_, _, rfl⟩
    · exact packLoop_total rest (x ++ f ++ sep) hr

theorem lineFields_even (line : Str) : (lineFields line).length % 2 = 0 := by
  simp only [lineFields]
  split
  · simp only [List.length_append, List.length_singleton]
    omega
  · omega

theorem lineFields_nil : lineFields [] = [[], []] := rfl

/-- The fields of a non-empty line are its runs, padded to an even count. -/
theorem lineFields_cons (c : Char) (cs : Str) :
    lineFields (c :: cs) = runs (c :: cs) ∨ lineFields (c :: cs) = runs (c :: cs) ++ [[]] := by
  simp only [lineFields, splitOnSpace_cons]
  split
  · exact Or.inr rfl
  · exact Or.inl rfl

theorem flatten_lineFields (line : Str) : (lineFields line).flatten = line := by
  cases line with
  | nil => rfl
  | cons c cs =>
    rcases lineFields_cons c cs with e | e <;> rw [e] <;> simp [flatten_runs]

theorem alt_lineFields (c : Char) (cs : Str) : Alt (isSpace c) (lineFields (c :: cs)) := by
  rcases lineFields_cons c cs with e | e <;> rw [e]
  · exact alt_front _ _ _ (alt_runs c cs)
  · exact alt_runs c cs

theorem wrapLines_eq : ∀ (ls res : List Str),
    wrapLines m width ls res = some (res ++ ls.flatMap (lineOut m width))
  | [], res => by simp [wrapLines]
  | l :: ls, res => by
    obtain ⟨x1, out, e⟩ := packLoop_total m width (lineFields l) [] (lineFields_even l)
    simp only [wrapLines]
    rw [packLoop_acc, e]
    simp only [Option.map_some']
    rw [wrapLines_eq ls]
    simp only [lineOut, e, List.flatMap_cons]
    split <;> simp

/-- The function `wordWrap` always returns: its result is the trimmed
contributions of the logical lines, in order. -/
theorem wordWrap_eq (s : Str) :
    wordWrap m s width = some (((Split s).flatMap (lineOut m width)).map TrimSpace) := by
  simp [wordWrap, wrapLines_eq]

theorem lineOut_nil : lineOut m width [] = if width < m [] then [[]] else [] := by
  have e : lineFields [] = [[], []] := rfl
  by_cases h : width < m []
  · simp [lineOut, e, packLoop, h]
  · simp [lineOut, e, packLoop, h]

end PackLemmas

section PackProps

variable {α : Type} [LT α] [DecidableRel (α := α) (· < ·)] (m : Str → α) (width : α)

/-- When no measured string overflows, the loop accumulates every field into
`x` and appends nothing to `result`. -/
theorem packLoop_fits : ∀ (ts : List Str) (x : Str), ts.length % 2 = 0 →
    (∀ p, p <+: x ++ ts.flatten → ¬ width < m p) →
    packLoop m width ts x [] = some (x ++ ts.flatten, [])
  | [], x, _, _ => by simp [packLoop]
  | [f], x, h, _ => by simp at h
  | f :: sep :: rest, x, h, hp => by
    have hr : rest.length % 2 = 0 := by
      simp only [List.length_cons] at h
      omega
    have h1 : ¬ width < m (x ++ f) := by
      apply hp
      exact ⟨sep ++ rest.flatten, by simp⟩
    simp only [packLoop, if_neg h1]
    rw [packLoop_fits rest (x ++ f ++ sep) hr]
    · simp
    · intro p hpre
      apply hp
      simpa using hpre

theorem alt_back : ∀ (A B : List Str) (b : Bool), Alt b (A ++ B) → ∃ b1, Alt b1 B
  | [], _, b, h => ⟨b, h⟩
  | t :: A, B, b, h => by
    simp only [List.cons_append, Alt] at h
    exact alt_back A B _ h.2.2

/-- The words of the lines the loop emits, followed by the words of the
final `x`, are among the word tokens of what was consumed, in order. -/
theorem packLoop_words : ∀ (ts Q : List Str) (x : Str) (b : Bool) (x1 : Str) (out : List Str),
    ts.length % 2 = 0 → Alt b (Q ++ ts) → x = Q.flatten →
    packLoop m width ts x [] = some (x1, out) →
    (out.flatMap words ++ words x1).Sublist (wordToks (Q ++ ts))
  | [], Q, x, b, x1, out, _, halt, hx, hrun => by
    simp only [packLoop, Option.some.injEq, Prod.mk.injEq] at hrun
    obtain ⟨rfl, rfl⟩ := hrun
    rw [hx, words_flatten Q b (alt_front Q [] b halt)]
    simp
  | [f], _, _, _, _, _, h, _, _, _ => by simp at h
  | f :: sep :: rest, Q, x, b, x1, out, h, halt, hx, hrun => by
    have hr : rest.length % 2 = 0 := by
      simp only [List.length_cons] at h
      omega
    have hQ : words x = wordToks Q := by
      rw [hx]; exact words_flatten Q b (alt_front Q _ b halt)
    obtain ⟨b1, hsuf⟩ := alt_back Q _ b halt
    obtain ⟨b2, hrest⟩ := alt_back [f, sep] rest b1 hsuf
    have hsplit : Q ++ f :: sep :: rest = Q ++ ([f, sep] ++ rest) := by simp
    simp only [packLoop] at hrun
    by_cases hov : width < m (x ++ f)
    · by_cases hxe : x = []
      · rw [if_pos hov, if_pos hxe, packLoop_acc] at hrun
        obtain ⟨x2, out2, e⟩ := packLoop_total m width rest [] hr
        rw [e] at hrun
        simp only [Option.map_some', Option.some.injEq, Prod.mk.injEq] at hrun
        obtain ⟨rfl, rfl⟩ := hrun
        have ih := packLoop_words rest [] [] b2 x2 out2 hr hrest rfl e
        have hf : words f = wordToks [f] := by
          have := words_flatten [f] b1 (alt_front [f] (sep :: rest) b1 hsuf)
          simpa using this
        have s1 : (words f).Sublist (wordToks (Q ++ [f, sep])) := by
          rw [hf, wordToks_append]
          refine List.Sublist.trans ?_ (List.sublist_append_right _ _)
          have : wordToks [f, sep] = wordToks [f] ++ wordToks [sep] := wordToks_append [f] [sep]
          rw [this]
          exact List.sublist_append_left _ _
        have e2 : Q ++ f :: sep :: rest = (Q ++ [f, sep]) ++ rest := by simp
        rw [e2, wordToks_append]
        simp only [List.nil_append, List.singleton_append, List.flatMap_cons] at ih ⊢
        rw [List.append_assoc]
        exact s1.append ih
      · rw [if_pos hov, if_neg hxe, packLoop_acc] at hrun
        obtain ⟨x2, out2, e⟩ := packLoop_total m width rest (f ++ sep) hr
        rw [e] at hrun
        simp only [Option.map_some', Option.some.injEq, Prod.mk.injEq] at hrun
        obtain ⟨rfl, rfl⟩ := hrun
        have ih := packLoop_words rest [f, sep] (f ++ sep) b1 x2 out2 hr hsuf (by simp) e
        rw [hsplit, wordToks_append]
        simp only [List.nil_append, List.singleton_append, List.flatMap_cons]
        rw [List.append_assoc, hQ]
        exact (List.Sublist.refl _).append ih
    · rw [if_neg hov] at hrun
      have halt2 : Alt b ((Q ++ [f, sep]) ++ rest) := by simpa using halt
      have ih := packLoop_words rest (Q ++ [f, sep]) (x ++ f ++ sep) b x1 out hr halt2
        (by simp [hx]) hrun
      simpa using ih

/-- The words of the lines one logical line contributes are among the words
of that line, in order. -/
theorem lineOut_words (l : Str) : ((lineOut m width l).flatMap words).Sublist (words l) := by
  cases l with
  | nil =>
    rw [lineOut_nil]
    split <;> simp [words_nil]
  | cons c cs =>
    obtain ⟨x1, out, e⟩ := packLoop_total m width (lineFields (c :: cs)) [] (lineFields_even _)
    have h := packLoop_words m width (lineFields (c :: cs)) [] [] (isSpace c) x1 out
      (lineFields_even _) (alt_lineFields c cs) rfl e
    rw [List.nil_append, ← words_flatten _ _ (alt_lineFields c cs), flatten_lineFields] at h
    simp only [lineOut, e]
    split
    · simpa using h
    · rename_i hx
      have hx1 : x1 = [] := by simpa using hx
      subst hx1
      simpa [words_nil] using h

theorem alt_even_back : ∀ (Q ts : List Str) (b : Bool), Alt b (Q ++ ts) →
    Q.length % 2 = 0 → Alt b ts
  | [], _, _, h, _ => h
  | [q], _, _, _, hl => by simp at hl
  | q :: q2 :: Q, ts, b, h, hl => by
    simp only [List.cons_append, Alt, Bool.not_not] at h
    refine alt_even_back Q ts b h.2.2.2.2 ?_
    simp only [List.length_cons] at hl
    omega

theorem wordToks_pair (f sep : Str) (rest : List Str) (hne : f ≠ [])
    (hf : ∀ c ∈ f, isSpace c = false) (hsep : ∀ c ∈ sep, isSpace c = true) :
    wordToks (f :: sep :: rest) = f :: wordToks rest := by
  cases f with
  | nil => exact absurd rfl hne
  | cons c f =>
    cases sep with
    | nil => simp [wordToks, hf c (by simp)]
    | cons d sep => simp [wordToks, hf c (by simp), hsep d (by simp)]

/-- On fields that start with a word, the words of the lines the loop emits,
followed by the words of the final `x`, are exactly the word tokens consumed:
only separators are discarded. -/
theorem packLoop_words_eq : ∀ (ts Q : List Str) (x x1 : Str) (out : List Str),
    ts.length % 2 = 0 → Q.length % 2 = 0 → Alt false (Q ++ ts) → x = Q.flatten →
    packLoop m width ts x [] = some (x1, out) →
    out.flatMap words ++ words x1 = wordToks (Q ++ ts)
  | [], Q, x, x1, out, _, _, halt, hx, hrun => by
    simp only [packLoop, Option.some.injEq, Prod.mk.injEq] at hrun
    obtain ⟨rfl, rfl⟩ := hrun
    rw [hx, words_flatten Q false (alt_front Q [] false halt)]
    simp
  | [f], _, _, _, _, h, _, _, _, _ => by simp at h
  | f :: sep :: rest, Q, x, x1, out, h, hQl, halt, hx, hrun => by
    have hr : rest.length % 2 = 0 := by
      simp only [List.length_cons] at h
      omega
    have hQ : words x = wordToks Q := by
      rw [hx]; exact words_flatten Q false (alt_front Q _ false halt)
    have hts : Alt false (f :: sep :: rest) := alt_even_back Q _ false halt hQl
    obtain ⟨hfne, hf, hsep, hrest⟩ := alt_drop_two false f sep rest hts
    simp only [Bool.not_false] at hsep
    have hpair := wordToks_pair f sep rest hfne hf hsep
    simp only [packLoop] at hrun
    by_cases hov : width < m (x ++ f)
    · by_cases hxe : x = []
      · rw [if_pos hov, if_pos hxe, packLoop_acc] at hrun
        obtain ⟨x2, out2, e⟩ := packLoop_total m width rest [] hr
        rw [e] at hrun
        simp only [Option.map_some', Option.some.injEq, Prod.mk.injEq] at hrun
        obtain ⟨rfl, rfl⟩ := hrun
        have ih := packLoop_words_eq rest [] [] x2 out2 hr (by simp) hrest rfl e
        rw [hxe, words_nil] at hQ
        rw [wordToks_append, ← hQ, hpair]
        simp only [List.nil_append, List.singleton_append, List.flatMap_cons] at ih ⊢
        rw [words_word f hfne hf, List.append_assoc, ih]
        rfl
      · rw [if_pos hov, if_neg hxe, packLoop_acc] at hrun
        obtain ⟨x2, out2, e⟩ := packLoop_total m width rest (f ++ sep) hr
        rw [e] at hrun
        simp only [Option.map_some', Option.some.injEq, Prod.mk.injEq] at hrun
        obtain ⟨rfl, rfl⟩ := hrun
        have ih := packLoop_words_eq rest [f, sep] (f ++ sep) x2 out2 hr (by simp) hts
          (by simp) e
        rw [wordToks_append, ← hQ]
        simp only [List.nil_append, List.singleton_append, List.flatMap_cons]
        rw [List.append_assoc, ih]
        rfl
    · rw [if_neg hov] at hrun
      have halt2 : Alt false ((Q ++ [f, sep]) ++ rest) := by simpa using halt
      have ih := packLoop_words_eq rest (Q ++ [f, sep]) (x ++ f ++ sep) x1 out hr
        (by simp only [List.length_append, List.length_cons, List.length_nil]; omega) halt2
        (by simp [hx]) hrun
      simpa using ih

/-- A logical line that does not begin with whitespace contributes lines
whose words are exactly the words of that line, in order. -/
theorem lineOut_words_eq (l : Str) (hlead : ∀ c ∈ l.head?, isSpace c = false) :
    (lineOut m width l).flatMap words = words l := by
  cases l with
  | nil =>
    rw [lineOut_nil]
    split <;> simp [words_nil]
  | cons c cs =>
    have hc : isSpace c = false := hlead c (by simp)
    have halt : Alt false (lineFields (c :: cs)) := hc ▸ alt_lineFields c cs
    obtain ⟨x1, out, e⟩ := packLoop_total m width (lineFields (c :: cs)) [] (lineFields_even _)
    have h := packLoop_words_eq m width (lineFields (c :: cs)) [] [] x1 out
      (lineFields_even _) (by simp) halt rfl e
    rw [List.nil_append, ← words_flatten _ _ halt, flatten_lineFields] at h
    simp only [lineOut, e]
    split
    · simpa using h
    · rename_i hx
      have hx1 : x1 = [] := by simpa using hx
      subst hx1
      simpa [words_nil] using h

theorem flatMap_sublist {β γ : Type} (f g : β → List γ) (h : ∀ l, (f l).Sublist (g l)) :
    ∀ ls : List β, (ls.flatMap f).Sublist (ls.flatMap g)
  | [] => by simp
  | l :: ls => by
    simp only [List.flatMap_cons]
    exact (h l).append (flatMap_sublist f g h ls)

theorem flatMap_words_map_TrimSpace (ls : List Str) :
    (ls.map TrimSpace).flatMap words = ls.flatMap words := by
  induction ls with
  | nil => rfl
  | cons l ls ih => simp [List.flatMap_cons, words_TrimSpace, ih]

end PackProps

/-! ## Lines that wrap to themselves -/

theorem rdropWhile_append_all (p : Char → Bool) (l : Str) :
    ∀ sp : Str, (∀ c ∈ sp, p c = true) → (l ++ sp).rdropWhile p = l.rdropWhile p := by
  intro sp
  induction sp using List.reverseRecOn with
  | nil => simp
  | append_singleton sp c ih =>
    intro h
    rw [← List.append_assoc, List.rdropWhile_concat_pos _ _ _ (h c (by simp))]
    exact ih (fun d hd => h d (by simp [hd]))

/-- Trimming a tight string followed by whitespace gives the tight string. -/
theorem TrimSpace_tight_append (l sp : Str) (hl : Tight l) (hsp : ∀ c ∈ sp, isSpace c = true) :
    TrimSpace (l ++ sp) = l := by
  obtain ⟨hne, hhead, hlast⟩ := hl
  have h1 : (l ++ sp).dropWhile isSpace = l ++ sp := by
    cases l with
    | nil => exact absurd rfl hne
    | cons c l =>
      have hc : isSpace c = false := hhead c (by simp)
      simp [List.dropWhile_cons, hc]
  have h2 : l.rdropWhile isSpace = l := by
    rcases List.eq_nil_or_concat l with e | ⟨l1, d, e⟩
    · exact absurd e hne
    · rw [List.concat_eq_append] at e
      subst e
      have hd : isSpace d = false := hlast d (by simp)
      exact List.rdropWhile_concat_neg _ _ _ (by simp [hd])
  rw [TrimSpace, h1, rdropWhile_append_all isSpace l sp hsp, h2]

theorem TrimSpace_tight (l : Str) (hl : Tight l) : TrimSpace l = l := by
  have := TrimSpace_tight_append l [] hl (by simp)
  simpa using this

theorem tight_word (f : Str) (hne : f ≠ []) (h : ∀ c ∈ f, isSpace c = false) : Tight f :=
  ⟨hne, fun c hc => h c (List.mem_of_mem_head? hc), fun c hc => h c (List.mem_of_mem_getLast? hc)⟩

theorem tight_extend (l sp f : Str) (hl : Tight l) (hne : f ≠ [])
    (h : ∀ c ∈ f, isSpace c = false) : Tight (l ++ sp ++ f) := by
  obtain ⟨hlne, hhead, -⟩ := hl
  refine ⟨by simp [hne], ?_, ?_⟩
  · rw [List.append_assoc, List.head?_append_of_ne_nil _ hlne]
    exact hhead
  · rw [List.getLast?_append_of_ne_nil _ hne]
    exact fun c hc => h c (List.mem_of_mem_getLast? hc)

theorem not_newline_of_word (f : Str) (h : ∀ c ∈ f, isSpace c = false) : '\n' ∉ f := by
  intro hmem
  have := h _ hmem
  rw [isSpace_newline] at this
  exact absurd this (by simp)

section Stable

variable {α : Type} [LT α] [DecidableRel (α := α) (· < ·)] (m : Str → α) (width : α)

theorem wordWrap_append_newline (a b : Str) :
    wordWrap m (a ++ '\n' :: b) width
      = some (((Split a).flatMap (lineOut m width)).map TrimSpace
          ++ ((Split b).flatMap (lineOut m width)).map TrimSpace) := by
  rw [wordWrap_eq, Split_append_newline]
  simp

theorem wordWrap_nil : wordWrap m [] width = some (if width < m [] then [[]] else []) := by
  rw [wordWrap_eq]
  have e : Split [] = [[]] := rfl
  rw [e]
  simp only [List.flatMap_cons, List.flatMap_nil, List.append_nil, lineOut_nil]
  split <;> simp [TrimSpace]

/-- A non-empty newline-free string all of whose prefixes fit wraps to its
trimmed self. -/
theorem wordWrap_of_fits (s : Str) (hne : s ≠ []) (hnl : '\n' ∉ s)
    (hfit : ∀ p, p <+: s → ¬ width < m p) : wordWrap m s width = some [TrimSpace s] := by
  rw [wordWrap_eq, Split_no_newline s hnl]
  have e := packLoop_fits m width (lineFields s) [] (lineFields_even s) (by
    intro p hp
    rw [List.nil_append, flatten_lineFields] at hp
    exact hfit p hp)
  rw [List.nil_append, flatten_lineFields] at e
  simp [lineOut, e, hne]

/-- A single word wraps to itself, whatever the measure. -/
theorem wordWrap_word (f : Str) (hne : f ≠ []) (h : ∀ c ∈ f, isSpace c = false) :
    wordWrap m f width = some [f] := by
  rw [wordWrap_eq, Split_no_newline f (not_newline_of_word f h)]
  cases f with
  | nil => exact absurd rfl hne
  | cons c t =>
    have e : lineFields (c :: t) = [c :: t, []] := by
      simp [lineFields, splitOnSpace_cons, runs_homog false c t h]
    have ht : TrimSpace (c :: t) = c :: t := TrimSpace_tight _ (tight_word _ hne h)
    by_cases hov : width < m (c :: t)
    · simp [lineOut, e, packLoop, hov, ht]
    · simp [lineOut, e, packLoop, hov, ht]

/-- On a line that starts with a word, every line the loop emits is a
non-empty `Pending` string, so is the final `x` unless it is empty, and the
loop emits something unless there was nothing to pack. -/
theorem packLoop_pending :
    ∀ (ts : List Str) (x x1 : Str) (out : List Str),
    ts.length % 2 = 0 → Alt false ts → (∀ t ∈ ts, '\n' ∉ t) → Pending m width x →
    packLoop m width ts x [] = some (x1, out) →
    (∀ y ∈ out, y ≠ [] ∧ Pending m width y) ∧ Pending m width x1 ∧
      (ts ≠ [] ∨ x ≠ [] → out ≠ [] ∨ x1 ≠ [])
  | [], x, x1, out, _, _, _, hp, hrun => by
    simp only [packLoop, Option.some.injEq, Prod.mk.injEq] at hrun
    obtain ⟨rfl, rfl⟩ := hrun
    refine ⟨by simp, hp, ?_⟩
    intro h
    rcases h with h | h
    · exact absurd rfl h
    · exact Or.inr h
  | [f], _, _, _, h, _, _, _, _ => by simp at h
  | f :: sep :: rest, x, x1, out, h, halt, hnl, hp, hrun => by
    have hr : rest.length % 2 = 0 := by
      simp only [List.length_cons] at h
      omega
    obtain ⟨hfne, hf, hsep, hrest⟩ := alt_drop_two false f sep rest halt
    simp only [Bool.not_false] at hsep
    have hnlr : ∀ t ∈ rest, '\n' ∉ t := fun t ht => hnl t (by simp [ht])
    have hnlf : '\n' ∉ f := hnl f (by simp)
    have hnls : '\n' ∉ sep := hnl sep (by simp)
    have hword : Pending m width f :=
      Or.inr ⟨f, [], by simp, tight_word f hfne hf, by simp, hnlf, Or.inr hf⟩
    have hpf : Pending m width (f ++ sep) :=
      Or.inr ⟨f, sep, rfl, tight_word f hfne hf, hsep, by simp [hnlf, hnls], Or.inr hf⟩
    simp only [packLoop] at hrun
    by_cases hov : width < m (x ++ f)
    · by_cases hxe : x = []
      · rw [if_pos hov, if_pos hxe, packLoop_acc] at hrun
        obtain ⟨x2, out2, e⟩ := packLoop_total m width rest [] hr
        rw [e] at hrun
        simp only [Option.map_some', Option.some.injEq, Prod.mk.injEq] at hrun
        obtain ⟨rfl, rfl⟩ := hrun
        obtain ⟨i1, i2, -⟩ := packLoop_pending rest [] x2 out2 hr hrest hnlr (Or.inl rfl) e
        refine ⟨?_, i2, fun _ => Or.inl (by simp)⟩
        intro y hy
        simp only [List.nil_append, List.singleton_append, List.mem_cons] at hy
        rcases hy with rfl | hy
        · exact ⟨hfne, hword⟩
        · exact i1 y hy
      · rw [if_pos hov, if_neg hxe, packLoop_acc] at hrun
        obtain ⟨x2, out2, e⟩ := packLoop_total m width rest (f ++ sep) hr
        rw [e] at hrun
        simp only [Option.map_some', Option.some.injEq, Prod.mk.injEq] at hrun
        obtain ⟨rfl, rfl⟩ := hrun
        obtain ⟨i1, i2, -⟩ := packLoop_pending rest (f ++ sep) x2 out2 hr hrest hnlr hpf e
        refine ⟨?_, i2, fun _ => Or.inl (by simp)⟩
        intro y hy
        simp only [List.nil_append, List.singleton_append, List.mem_cons] at hy
        rcases hy with rfl | hy
        · exact ⟨hxe, hp⟩
        · exact i1 y hy
    · rw [if_neg hov] at hrun
      have hp2 : Pending m width (x ++ f ++ sep) := by
        rcases hp with hp | ⟨l, sp, rfl, hl, hsp, hnlx, -⟩
        · subst hp
          simpa using hpf
        · refine Or.inr ⟨l ++ sp ++ f, sep, rfl, tight_extend l sp f hl hfne hf, hsep, ?_,
            Or.inl hov⟩
          simp only [List.mem_append, not_or] at hnlx ⊢
          exact ⟨⟨hnlx, hnlf⟩, hnls⟩
      obtain ⟨i1, i2, i3⟩ := packLoop_pending rest (x ++ f ++ sep) x1 out hr hrest hnlr hp2
        hrun
      exact ⟨i1, i2, fun _ => i3 (Or.inr (by simp [hfne]))⟩

theorem not_mem_of_mem_splitAtP (p : Char → Bool) : ∀ (s l : Str), l ∈ splitAtP p s →
    ∀ c ∈ l, p c = false
  | [], l, hl => by
    simp only [splitAtP, List.mem_singleton] at hl
    subst hl
    simp
  | d :: s, l, hl => by
    have ih := not_mem_of_mem_splitAtP p s
    by_cases hd : p d = true
    · simp only [splitAtP, hd, if_true, List.mem_cons] at hl
      rcases hl with rfl | hl
      · simp
      · exact ih l hl
    · obtain ⟨t, ts, e⟩ := List.exists_cons_of_ne_nil (splitAtP_ne_nil p s)
      have e2 : splitAtP p (d :: s) = (d :: t) :: ts := by simp [splitAtP, hd, e]
      rw [e2, List.mem_cons] at hl
      rcases hl with rfl | hl
      · intro c hc
        simp only [List.mem_cons] at hc
        rcases hc with rfl | hc
        · simpa using hd
        · exact ih t (by simp [e]) c hc
      · exact ih l (by simp [e, hl])

theorem not_newline_of_mem_Split (s l : Str) (hl : l ∈ Split s) : '\n' ∉ l := by
  intro hmem
  have := not_mem_of_mem_splitAtP _ s l hl _ hmem
  simp at this

/-- Every line contributed by a logical line that does not begin with
whitespace is a `Pending` string, empty only when the empty string overflows;
and a line contributes nothing only when the empty string does not overflow. -/
theorem lineOut_pending (l : Str) (hnl : '\n' ∉ l) (hlead : ∀ c ∈ l.head?, isSpace c = false) :
    (∀ y ∈ lineOut m width l, Pending m width y ∧ (y = [] → width < m [])) ∧
      (lineOut m width l = [] → ¬ width < m []) := by
  cases l with
  | nil =>
    rw [lineOut_nil]
    by_cases hov : width < m []
    · simp only [if_pos hov, List.mem_singleton]
      refine ⟨?_, by simp⟩
      rintro y rfl
      exact ⟨Or.inl rfl, fun _ => hov⟩
    · simp [hov]
  | cons c cs =>
    have hc : isSpace c = false := hlead c (by simp)
    have halt : Alt false (lineFields (c :: cs)) := hc ▸ alt_lineFields c cs
    have hnlt : ∀ t ∈ lineFields (c :: cs), '\n' ∉ t := by
      intro t ht hmem
      apply hnl
      rw [← flatten_lineFields (c :: cs)]
      exact List.mem_flatten.mpr ⟨t, ht, hmem⟩
    have hne : lineFields (c :: cs) ≠ [] := by
      intro e
      have := flatten_lineFields (c :: cs)
      rw [e] at this
      simp at this
    obtain ⟨x1, out, e⟩ := packLoop_total m width (lineFields (c :: cs)) [] (lineFields_even _)
    obtain ⟨i1, i2, i3⟩ := packLoop_pending m width _ [] x1 out (lineFields_even _) halt
      hnlt (Or.inl rfl) e
    simp only [lineOut, e]
    by_cases hx : x1 = []
    · subst hx
      simp only [ne_eq, not_true_eq_false, if_false]
      refine ⟨fun y hy => ⟨(i1 y hy).2, fun h0 => absurd h0 (i1 y hy).1⟩, fun ho => ?_⟩
      rcases i3 (Or.inl hne) with h | h
      · exact absurd ho h
      · exact absurd rfl h
    · simp only [ne_eq, hx, not_false_eq_true, if_true]
      refine ⟨?_, by simp⟩
      intro y hy
      simp only [List.mem_append, List.mem_singleton] at hy
      rcases hy with hy | rfl
      · exact ⟨(i1 y hy).2, fun h0 => absurd h0 (i1 y hy).1⟩
      · exact ⟨i2, fun h0 => absurd h0 hx⟩

/-- Every line contributed by a logical line that does not begin with
whitespace does not test wider than `width` after trimming, or contains no
whitespace. -/
theorem lineOut_width (l : Str) (hnl : '\n' ∉ l) (hlead : ∀ c ∈ l.head?, isSpace c = false) :
    ∀ y ∈ lineOut m width l,
      ¬ width < m (TrimSpace y) ∨ ∀ c ∈ TrimSpace y, isSpace c = false := by
  intro y hy
  rcases ((lineOut_pending m width l hnl hlead).1 y hy).1 with h | ⟨L, sp, rfl, hl, hsp, -, hfit⟩
  · subst h
    right
    intro c hc
    have ht : TrimSpace [] = [] := rfl
    rw [ht] at hc
    simp at hc
  · rw [TrimSpace_tight_append L sp hl hsp]
    exact hfit

/-- Lines that each wrap to themselves are reproduced when joined with
newlines and wrapped again. -/
theorem wordWrap_joinLines : ∀ r : List Str, r ≠ [] →
    (∀ l ∈ r, wordWrap m l width = some [l]) → wordWrap m (joinLines r) width = some r
  | [], h, _ => absurd rfl h
  | [l], _, hs => hs l (by simp)
  | l :: a :: r, _, hs => by
    have ih := wordWrap_joinLines (a :: r) (by simp) (fun y hy => hs y (by simp [hy]))
    have hl := hs l (by simp)
    rw [wordWrap_eq] at ih hl
    simp only [Option.some.injEq] at ih hl
    rw [joinLines_cons l (a :: r) (by simp), wordWrap_append_newline, ih, hl]
    rfl

/-- A string without whitespace has at most one word. -/
theorem not_two_words (l : Str) (h : ∀ c ∈ l, isSpace c = false) : ¬ 2 ≤ (words l).length := by
  by_cases hne : l = []
  · subst hne
    simp [words_nil]
  · rw [words_word l hne h]
    simp

/-- When no logical line begins with whitespace, for every emitted line the
overflow test is false or the line contains no whitespace. -/
theorem wordWrap_lines_width (s : Str)
    (hlead : ∀ l ∈ Split s, ∀ c ∈ l.head?, isSpace c = false) :
    ∀ l ∈ ((Split s).flatMap (lineOut m width)).map TrimSpace,
      ¬ width < m l ∨ ∀ c ∈ l, isSpace c = false := by
  intro l hl
  simp only [List.mem_map, List.mem_flatMap] at hl
  obtain ⟨y, ⟨l1, hl1, hy⟩, rfl⟩ := hl
  exact lineOut_width m width l1 (not_newline_of_mem_Split s l1 hl1) (hlead l1 hl1) y hy

end Stable

section StableOrder

variable {α : Type} [LinearOrder α] (m : Str → α) (width : α)

/-- What `Pending` promises: the trimmed accumulator wraps to itself. -/
theorem pending_stable (hmono : ∀ p q, m p ≤ m (p ++ q)) (x : Str) (hx : x ≠ [])
    (hp : Pending m width x) :
    wordWrap m (TrimSpace x) width = some [TrimSpace x] := by
  rcases hp with hp | ⟨l, sp, rfl, hl, hsp, hnl, hfit⟩
  · exact absurd hp hx
  · rw [TrimSpace_tight_append l sp hl hsp]
    rcases hfit with hfit | hword
    · have h := wordWrap_of_fits m width l hl.1 (fun hmem => hnl (by simp [hmem])) (by
        rintro p ⟨q, rfl⟩
        exact fun hlt => hfit (lt_of_lt_of_le hlt (hmono p q)))
      rw [h, TrimSpace_tight l hl]
    · exact wordWrap_word m width l hl.1 hword

/-- Every line contributed by a logical line that does not begin with
whitespace wraps to itself after trimming, under a monotone measure. -/
theorem lineOut_stable (hmono : ∀ p q, m p ≤ m (p ++ q)) (l : Str) (hnl : '\n' ∉ l)
    (hlead : ∀ c ∈ l.head?, isSpace c = false) :
    (∀ y ∈ lineOut m width l, wordWrap m (TrimSpace y) width = some [TrimSpace y]) ∧
      (lineOut m width l = [] → ¬ width < m []) := by
  obtain ⟨h1, h2⟩ := lineOut_pending m width l hnl hlead
  refine ⟨fun y hy => ?_, h2⟩
  obtain ⟨hp, h0⟩ := h1 y hy
  by_cases hy0 : y = []
  · subst hy0
    have ht : TrimSpace [] = [] := rfl
    rw [ht, wordWrap_nil, if_pos (h0 rfl)]
  · exact pending_stable m width hmono y hy0 hp

end StableOrder

/-! ## The shape of the token list -/

theorem alt_tokens : ∀ (T : List Str) (b : Bool), Alt b (T ++ [[]]) →
    ∀ t ∈ T, t ≠ [] ∧ ((∀ d ∈ t, isSpace d = true) ∨ (∀ d ∈ t, isSpace d = false))
  | [], _, _ => by simp
  | t :: T, b, h => by
    simp only [List.cons_append, Alt] at h
    obtain ⟨h1, h2, h3⟩ := h
    intro u hu
    rcases List.mem_cons.mp hu with rfl | hu
    · refine ⟨?_, ?_⟩
      · rcases h1 with h1 | h1
        · exact h1
        · simp at h1
      · cases b
        · exact Or.inr h2
        · exact Or.inl h2
    · exact alt_tokens T _ h3 u hu

theorem alt_chain : ∀ (T : List Str) (b : Bool), Alt b T →
    List.Chain' (fun a c => ∀ d ∈ a, ∀ e ∈ c, isSpace d ≠ isSpace e) T
  | [], _, _ => List.chain'_nil
  | [t], _, _ => List.chain'_singleton t
  | t :: u :: T, b, h => by
    simp only [Alt] at h
    obtain ⟨-, h2, h3, h4, h5⟩ := h
    refine List.chain'_cons.mpr ⟨?_, alt_chain (u :: T) (!b) (by simp only [Alt]; exact ⟨h3, h4, h5⟩)⟩
    intro d hd e he
    rw [h2 d hd, h4 e he]
    cases b <;> simp

theorem lineFields_length (line : Str) : 2 ≤ (lineFields line).length := by
  have he := lineFields_even line
  have hne : lineFields line ≠ [] := by
    cases line with
    | nil => simp [lineFields_nil]
    | cons c cs =>
      intro e
      have := flatten_lineFields (c :: cs)
      rw [e] at this
      simp at this
  have hpos : 0 < (lineFields line).length := List.length_pos.mpr hne
  omega

/-! ## The name table of `Actions` -/

/-- What the loop of `FromString` returns: the first index from `j` on whose
name is `s`, stored with a nil error, or else the receiver unchanged with an
error. -/
theorem fromStringLoop_spec (s : Str) (i : Actions) : ∀ (n j : Nat),
    (∃ k, j ≤ k ∧ k < j + n ∧ s = actionsName k ∧ fromStringLoop s i n j = ((k : Int), none)) ∨
    ((∀ k, j ≤ k → k < j + n → s ≠ actionsName k) ∧
      fromStringLoop s i n j = (i, some (actionsError s)))
  | 0, j => by
    right
    exact ⟨fun k h1 h2 => by omega, rfl⟩
  | n + 1, j => by
    by_cases h : s = actionsName j
    · left
      exact ⟨j, le_refl j, by omega, h, by simp [fromStringLoop, h]⟩
    · rcases fromStringLoop_spec s i n (j + 1) with ⟨k, h1, h2, h3, h4⟩ | ⟨h1, h2⟩
      · left
        exact ⟨k, by omega, by omega, h3, by simp only [fromStringLoop, if_neg h]; exact h4⟩
      · right
        refine ⟨?_, by simp only [fromStringLoop, if_neg h]; exact h2⟩
        intro k hk1 hk2
        by_cases hkj : k = j
        · subst hkj; exact h
        · exact h1 k (by omega) (by omega)

theorem String_of_lt (k : Nat) (hk : k < 7) : Actions.String (k : Int) = actionsName k := by
  interval_cases k <;> decide

/-- The rendering of an out-of-range value is none of the seven names. -/
theorem rendering_ne_name (d : Str) (k : Nat) (hk : k < 7) :
    "Actions(".toList ++ d ++ ")".toList ≠ actionsName k := by
  intro h
  have e : "Actions(".toList = ['A', 'c', 't', 'i', 'o', 'n', 's', '('] := by decide
  have h7 : ("Actions(".toList ++ d ++ ")".toList)[7]? = some '(' := by
    rw [e]
    simp
  rw [h] at h7
  interval_cases k <;> revert h7 <;> decide

/-! ## Properties of `wordWrap` -/

section Properties

variable {α : Type} [LinearOrder α]

/-- C1 (the code at a failing input): under 10 × length at width 5 the line
`" a"` wraps to one empty line, so its word `a` is lost. -/
theorem wordWrap_drops_word_after_leading_space :
    wordWrap tenPerChar " a".toList 5 = some [[]] ∧
    words " a".toList = ["a".toList] ∧
    ([[]] : List Str).flatMap words = [] := by decide

/-- C2 (the code at a failing input): under 10 × length at width 30 the line
`" a bbbbbb"` is emitted as the single line `"a bbbbbb"`, which contains
whitespace and measures 80 > 30. -/
theorem wordWrap_overwide_after_leading_space :
    wordWrap tenPerChar " a bbbbbb".toList 30 = some ["a bbbbbb".toList] ∧
    (30 : Int) < tenPerChar "a bbbbbb".toList ∧
    ' ' ∈ "a bbbbbb".toList ∧ isSpace ' ' = true := by decide

/-- C3: explicit newlines are hard boundaries and no state is carried across
them: wrapping `a + "\n" + b` returns the lines of `a` followed by the lines
of `b`, for every measure and width; in particular `"ab\ncd"` wraps to
`["ab", "cd"]` whatever the measure and the width. -/
theorem wordWrap_newline_boundary (m : Str → α) (w : α) (a b : Str) :
    (∃ ra rb, wordWrap m a w = some ra ∧ wordWrap m b w = some rb ∧
      wordWrap m (a ++ '\n' :: b) w = some (ra ++ rb)) ∧
    wordWrap m "ab\ncd".toList w = some ["ab".toList, "cd".toList] := by
  constructor
  · refine ⟨_, _, wordWrap_eq m w a, wordWrap_eq m w b, ?_⟩
    rw [wordWrap_eq, Split_append_newline]
    simp
  · rw [wordWrap_eq]
    have e1 : Split "ab\ncd".toList = [['a', 'b'], ['c', 'd']] := by decide
    have e2 : lineFields ['a', 'b'] = [['a', 'b'], []] := by decide
    have e3 : lineFields ['c', 'd'] = [['c', 'd'], []] := by decide
    have t1 : TrimSpace ['a', 'b'] = ['a', 'b'] := by decide
    have t2 : TrimSpace ['c', 'd'] = ['c', 'd'] := by decide
    have l1 : lineOut m w ['a', 'b'] = [['a', 'b']] := by
      by_cases h : w < m ['a', 'b'] <;> simp [lineOut, e2, packLoop, h]
    have l2 : lineOut m w ['c', 'd'] = [['c', 'd']] := by
      by_cases h : w < m ['c', 'd'] <;> simp [lineOut, e3, packLoop, h]
    rw [e1]
    simp only [List.flatMap_cons, List.flatMap_nil, l1, l2]
    simp only [List.append_nil, List.singleton_append, List.map_cons, List.map_nil, t1, t2]
    rfl

/-- C4 (as stated, refuted): with the measure 10 × (number of characters)
and width 35, `"the quick brown fox"` does not wrap to
`["the quick", "brown fox"]`. -/
theorem quick_brown_fox_not_two_lines :
    wordWrap tenPerChar "the quick brown fox".toList 35
      ≠ some ["the quick".toList, "brown fox".toList] := by decide

/-- C4 (amended): with the measure 10 × (number of characters) and width 35,
`"the quick brown fox"` wraps to one word per line,
`["the", "quick", "brown", "fox"]`: every two-word candidate measures at
least 90 > 35. -/
theorem wordWrap_quick_brown_fox :
    wordWrap tenPerChar "the quick brown fox".toList 35
      = some ["the".toList, "quick".toList, "brown".toList, "fox".toList] := by decide

/-- C5 (as stated, refuted): under the measure that makes a string ending in
`b` 10 wide and any other string 0 wide, `"a b c"` wraps at width 5 to
`["a", "b c"]`, and wrapping `"a\nb c"` again gives `["a", "b", "c"]`. -/
theorem rewrap_differs_nonmonotone :
    wordWrap wideAfterB "a b c".toList 5 = some ["a".toList, "b c".toList] ∧
    wordWrap wideAfterB (joinLines ["a".toList, "b c".toList]) 5
      = some ["a".toList, "b".toList, "c".toList] ∧
    ["a".toList, "b".toList, "c".toList] ≠ ["a".toList, "b c".toList] := by decide

/-- Re-wrapping also differs on a blank logical line, under the monotone
measure 10 × length: `" "` wraps to one empty line, and wrapping that empty
line again gives no line at all. -/
theorem rewrap_differs_blank_line :
    wordWrap tenPerChar " ".toList 100 = some [[]] ∧
    wordWrap tenPerChar (joinLines [[]]) 100 = some [] := by decide

/-- C5 (amended): under a measure that never decreases when a string is
extended, and for a text none of whose logical lines begins with whitespace,
wrapping is idempotent: re-joining the lines with newlines and wrapping again
at the same width returns the same lines. -/
theorem wordWrap_idempotent (m : Str → α) (w : α) (s : Str)
    (hmono : ∀ p q, m p ≤ m (p ++ q))
    (hlead : ∀ l ∈ Split s, ∀ c ∈ l.head?, isSpace c = false) :
    ∃ r, wordWrap m s w = some r ∧ wordWrap m (joinLines r) w = some r := by
  refine ⟨_, wordWrap_eq m w s, ?_⟩
  have hst : ∀ l ∈ Split s, (∀ y ∈ lineOut m w l,
      wordWrap m (TrimSpace y) w = some [TrimSpace y]) ∧ (lineOut m w l = [] → ¬ w < m []) :=
    fun l hl => lineOut_stable m w hmono l (not_newline_of_mem_Split s l hl) (hlead l hl)
  by_cases hr : ((Split s).flatMap (lineOut m w)).map TrimSpace = []
  · rw [hr]
    obtain ⟨l0, ls, e⟩ := List.exists_cons_of_ne_nil (splitAtP_ne_nil (fun c => c == '\n') s)
    have e2 : Split s = l0 :: ls := e
    have h0 : lineOut m w l0 = [] := by
      rw [e2] at hr
      simp only [List.flatMap_cons, List.map_append, List.append_eq_nil, List.map_eq_nil_iff]
        at hr
      exact hr.1
    have hno := (hst l0 (by simp [e2])).2 h0
    have hj : joinLines [] = [] := rfl
    rw [hj, wordWrap_nil, if_neg hno]
  · refine wordWrap_joinLines m w _ hr ?_
    intro l hl
    simp only [List.mem_map, List.mem_flatMap] at hl
    obtain ⟨y, ⟨l1, hl1, hy⟩, rfl⟩ := hl
    exact (hst l1 hl1).1 y hy

/-- C5 (witness): the two-line text `"the quick brown fox\njumps"` under
10 × length at width 90. -/
theorem wordWrap_idempotent_witness :
    ∃ r, wordWrap tenPerChar "the quick brown fox\njumps".toList 90 = some r ∧
      wordWrap tenPerChar (joinLines r) 90 = some r :=
  wordWrap_idempotent tenPerChar 90 "the quick brown fox\njumps".toList
    (by intro p q; simp only [tenPerChar, List.length_append]; push_cast; omega)
    (by decide)

/-- C6: overflow needs a strictly greater width: when every prefix of a
non-empty newline-free string measures at most `w` (equality allowed), the
result is the single line `TrimSpace s`. -/
theorem wordWrap_fits_single_line (m : Str → α) (w : α) (s : Str) (hne : s ≠ [])
    (hnl : '\n' ∉ s) (hfit : ∀ p, p <+: s → m p ≤ w) :
    wordWrap m s w = some [TrimSpace s] :=
  wordWrap_of_fits m w s hne hnl (fun p hp => not_lt.mpr (hfit p hp))

/-- C6 (witness): `"ab cd"` measures exactly 50 under 10 × length, and wraps
at width 50 to the single line `"ab cd"`. -/
theorem wordWrap_fits_single_line_witness :
    wordWrap tenPerChar "ab cd".toList 50 = some [TrimSpace "ab cd".toList] :=
  wordWrap_fits_single_line tenPerChar 50 "ab cd".toList (by decide) (by decide) (by
    intro p hp
    have h := hp.length_le
    have h5 : "ab cd".toList.length = 5 := rfl
    rw [h5] at h
    simp only [tenPerChar]
    omega)

/-- C7: no word is broken or invented: the words of the output lines, read
in order, form a subsequence of the words of the text, so every word of
every output line is a whole word of the text. -/
theorem wordWrap_words_sublist (m : Str → α) (w : α) (s : Str) :
    ∃ r, wordWrap m s w = some r ∧ (r.flatMap words).Sublist (words s) ∧
      ∀ l ∈ r, ∀ u ∈ words l, u ∈ words s := by
  have hsub : ((((Split s).flatMap (lineOut m w)).map TrimSpace).flatMap words).Sublist
      (words s) := by
    rw [flatMap_words_map_TrimSpace, words_eq_flatMap_Split s, List.flatMap_assoc]
    exact flatMap_sublist _ _ (lineOut_words m w) (Split s)
  refine ⟨_, wordWrap_eq m w s, hsub, ?_⟩
  intro l hl u hu
  exact hsub.subset (List.mem_flatMap.mpr ⟨l, hl, hu⟩)

/-- C8 (the code at a failing input): under 10 × length (positive on every
non-empty string) at width 0 the line `" a b"` wraps to two empty lines: no
word is on a line of its own, both words are lost. -/
theorem wordWrap_zero_width_leading_space :
    wordWrap tenPerChar " a b".toList 0 = some [[], []] ∧
    words " a b".toList = ["a".toList, "b".toList] := by decide

/-- C9: on the empty string `wordWrap` returns, with no line when
`m("") <= w` and with the single empty line when `m("") > w`. -/
theorem wordWrap_empty (m : Str → α) (w : α) :
    wordWrap m [] w = some (if w < m [] then [[]] else []) :=
  wordWrap_nil m w

/-- C10 (the code at a failing input): for the whitespace-only line `"  "`
the fields are the whitespace followed by the appended empty string, and for
`" a"` they are `" "` then `"a"`: position 0 holds whitespace. -/
theorem lineFields_leading_space :
    lineFields "  ".toList = ["  ".toList, []] ∧
    lineFields " a".toList = [" ".toList, "a".toList] := by decide

/-- C11: `splitOnSpace` partitions its argument into maximal runs of
same-class characters: the tokens concatenate to the argument; on a
non-empty string every token is non-empty and either all whitespace or all
non-whitespace, and adjacent tokens are of opposite class; and
`splitOnSpace("")` is the single empty token. -/
theorem splitOnSpace_partition (x : Str) (c : Char) (cs : Str) :
    (splitOnSpace x).flatten = x ∧
    (∀ t ∈ splitOnSpace (c :: cs),
      t ≠ [] ∧ ((∀ d ∈ t, isSpace d = true) ∨ (∀ d ∈ t, isSpace d = false))) ∧
    List.Chain' (fun a b => ∀ d ∈ a, ∀ e ∈ b, isSpace d ≠ isSpace e) (splitOnSpace (c :: cs)) ∧
    splitOnSpace [] = [[]] := by
  refine ⟨?_, ?_, ?_, rfl⟩
  · cases x with
    | nil => rfl
    | cons a as => rw [splitOnSpace_cons, flatten_runs]
  · rw [splitOnSpace_cons]
    exact alt_tokens _ _ (alt_runs c cs)
  · rw [splitOnSpace_cons]
    exact alt_chain _ _ (alt_front _ _ _ (alt_runs c cs))

/-- C12 (the code at a failing input): with `text-align = "bogus"` and a
lookup that reports an error together with the value `i`, the field `Align`
is overwritten with `i`, whatever it held before (here `i + 1`). -/
theorem SetFromNode_failed_lookup_sets_align (i : TextAlign) (pt : TextStyle) :
    (TextStyle.SetFromNode (fun _ => (i, true)) { pt with Align := i + 1 }
      (alignOnlyNode "bogus".toList)).Align = i ∧ i + 1 ≠ i := by
  exact ⟨rfl, (lt_add_one i).ne'⟩

/-- C13 (the code at a failing input): with `text-align = "TextAlignCenter"`
and a lookup that succeeds with the value `a`, the field `Align` keeps its
prior value; from the zero style it stays `TextAlignLeft`, not
`TextAlignCenter`. -/
theorem SetFromNode_exact_name_ignored (a : TextAlign) (pt : TextStyle) :
    (TextStyle.SetFromNode (fun _ => (a, false)) pt
      (alignOnlyNode "TextAlignCenter".toList)).Align = pt.Align ∧
    (TextStyle.SetFromNode (fun _ => (TextAlignCenter, false)) zeroStyle
      (alignOnlyNode "TextAlignCenter".toList)).Align ≠ TextAlignCenter := by
  refine ⟨rfl, by decide⟩

/-- C14: a present `text-align` with a short-hand value sets `Align`
whatever it held before: `left` and `start` give `TextAlignLeft`, `center`
gives `TextAlignCenter`, `right` and `end` give `TextAlignRight`. -/
theorem SetFromNode_shorthand (lookup : Str → TextAlign × Bool) (pt : TextStyle)
    (g : Node2DBase) (es : Str) (h : g.PropEnum "text-align".toList = (es, true)) :
    (es = "left".toList ∨ es = "start".toList →
      (TextStyle.SetFromNode lookup pt g).Align = TextAlignLeft) ∧
    (es = "center".toList → (TextStyle.SetFromNode lookup pt g).Align = TextAlignCenter) ∧
    (es = "right".toList ∨ es = "end".toList →
      (TextStyle.SetFromNode lookup pt g).Align = TextAlignRight) := by
  simp only [TextStyle.SetFromNode, h]
  refine ⟨?_, ?_, ?_⟩
  · rintro (rfl | rfl) <;> rfl
  · rintro rfl; rfl
  · rintro (rfl | rfl) <;> rfl

/-- C14 (witness): `text-align = "start"` on a style aligned right. -/
theorem SetFromNode_shorthand_witness :
    ("start".toList = "left".toList ∨ "start".toList = "start".toList →
      (TextStyle.SetFromNode (fun _ => (0, true)) { zeroStyle with Align := TextAlignRight }
        (alignOnlyNode "start".toList)).Align = TextAlignLeft) ∧
    ("start".toList = "center".toList →
      (TextStyle.SetFromNode (fun _ => (0, true)) { zeroStyle with Align := TextAlignRight }
        (alignOnlyNode "start".toList)).Align = TextAlignCenter) ∧
    ("start".toList = "right".toList ∨ "start".toList = "end".toList →
      (TextStyle.SetFromNode (fun _ => (0, true)) { zeroStyle with Align := TextAlignRight }
        (alignOnlyNode "start".toList)).Align = TextAlignRight) :=
  SetFromNode_shorthand (fun _ => (0, true)) { zeroStyle with Align := TextAlignRight }
    (alignOnlyNode "start".toList) "start".toList rfl

/-- C15: `SetFromNode` changes a field only when its property is present:
`WordWrap` and `LineSpacing` take the value found, or keep their own when
none is found; `Align` is unchanged when `text-align` is not found; and
`LineHeight`, `Indent`, `LetterSpacing` and `WordSpacing` never change. -/
theorem SetFromNode_frame (lookup : Str → TextAlign × Bool) (pt : TextStyle) (g : Node2DBase) :
    (TextStyle.SetFromNode lookup pt g).WordWrap
      = (if (g.GiPropBool "word-wrap".toList).2 = true
          then (g.GiPropBool "word-wrap".toList).1 else pt.WordWrap) ∧
    (TextStyle.SetFromNode lookup pt g).LineSpacing
      = (if (g.PropNumber "line-spacing".toList).2 = true
          then (g.PropNumber "line-spacing".toList).1 else pt.LineSpacing) ∧
    ((g.PropEnum "text-align".toList).2 = true ∨
      (TextStyle.SetFromNode lookup pt g).Align = pt.Align) ∧
    (TextStyle.SetFromNode lookup pt g).LineHeight = pt.LineHeight ∧
    (TextStyle.SetFromNode lookup pt g).Indent = pt.Indent ∧
    (TextStyle.SetFromNode lookup pt g).LetterSpacing = pt.LetterSpacing ∧
    (TextStyle.SetFromNode lookup pt g).WordSpacing = pt.WordSpacing := by
  simp only [TextStyle.SetFromNode]
  generalize g.GiPropBool "word-wrap".toList = pb
  generalize g.PropNumber "line-spacing".toList = pn
  generalize g.PropEnum "text-align".toList = pe
  obtain ⟨wr, gb⟩ := pb
  obtain ⟨sz, gn⟩ := pn
  obtain ⟨es, ge⟩ := pe
  cases gb <;> cases gn <;> cases ge <;> dsimp only <;>
    (try (generalize lookup es = q
          generalize shortHand es = al
          obtain ⟨i, err⟩ := q
          by_cases hal : al = -1 <;> cases err)) <;>
    simp [*]

/-- C16 (as stated, refuted): a style whose `LineHeight` is 5 still has
`LineHeight` 5, not zero, after `Defaults()`. -/
theorem Defaults_keeps_LineHeight :
    (TextStyle.Defaults { zeroStyle with LineHeight := 5 }).LineHeight = 5 ∧ (5 : ℚ) ≠ 0 := by
  refine ⟨rfl, by norm_num⟩

/-- C16 (amended): after `Defaults()`, whatever the style held before,
`WordWrap = false`, `Align = TextAlignLeft`, `LineSpacing = 1.0` and
`LetterSpacing = 1.0`, while `LineHeight`, `Indent` and `WordSpacing` keep
their value; called on the zero style it gives the canonical default, with
every other field zero. -/
theorem Defaults_sets_four_fields (p : TextStyle) :
    (TextStyle.Defaults p).WordWrap = false ∧
    (TextStyle.Defaults p).Align = TextAlignLeft ∧
    (TextStyle.Defaults p).LineSpacing = 1 ∧
    (TextStyle.Defaults p).LetterSpacing = 1 ∧
    (TextStyle.Defaults p).LineHeight = p.LineHeight ∧
    (TextStyle.Defaults p).Indent = p.Indent ∧
    (TextStyle.Defaults p).WordSpacing = p.WordSpacing ∧
    TextStyle.Defaults zeroStyle = ⟨TextAlignLeft, 0, 1, 0, 1, 0, false⟩ :=
  ⟨rfl, rfl, rfl, rfl, rfl, rfl, rfl, rfl⟩

/-- C17: the fields packed for a logical line have even length at least 2,
the packing loop on them never reads out of range from any state, and
`wordWrap` returns for every text, measure and width. -/
theorem wordWrap_in_range (m : Str → α) (w : α) (s line x : Str) (result : List Str) :
    (lineFields line).length % 2 = 0 ∧ 2 ≤ (lineFields line).length ∧
    (packLoop m w (lineFields line) x result).isSome = true ∧
    ∃ r, wordWrap m s w = some r := by
  refine ⟨lineFields_even line, lineFields_length line, ?_, _, wordWrap_eq m w s⟩
  obtain ⟨x1, out, e⟩ := packLoop_total m w (lineFields line) x (lineFields_even line)
  rw [packLoop_acc, e]
  rfl

/-- C18: when no logical line begins with whitespace, the words of the
output lines, read in order, are exactly the words of the text, for every
measure and width. -/
theorem wordWrap_words_eq (m : Str → α) (w : α) (s : Str)
    (hlead : ∀ l ∈ Split s, ∀ c ∈ l.head?, isSpace c = false) :
    ∃ r, wordWrap m s w = some r ∧ r.flatMap words = words s := by
  refine ⟨_, wordWrap_eq m w s, ?_⟩
  rw [flatMap_words_map_TrimSpace, words_eq_flatMap_Split s, List.flatMap_assoc]
  have h : ∀ ls : List Str, (∀ l ∈ ls, ∀ c ∈ l.head?, isSpace c = false) →
      ls.flatMap (fun l => (lineOut m w l).flatMap words) = ls.flatMap words := by
    intro ls
    induction ls with
    | nil => intro _; rfl
    | cons l ls ih =>
      intro hl
      simp only [List.flatMap_cons]
      rw [lineOut_words_eq m w l (hl l (by simp)), ih (fun l1 h1 => hl l1 (by simp [h1]))]
  exact h (Split s) hlead

/-- C18 (witness): `"one two  three\nfour"` under the non-monotone measure
at width 5. -/
theorem wordWrap_words_eq_witness :
    ∃ r, wordWrap wideAfterB "one two  three\nfour".toList 5 = some r ∧
      r.flatMap words = words "one two  three\nfour".toList :=
  wordWrap_words_eq wideAfterB 5 "one two  three\nfour".toList (by decide)

/-- C19 (as stated, refuted): under a measure that returns NaN, at width 5,
the text `"a b"`, which does not begin with whitespace, wraps to the single
line `"a b"`: it contains whitespace and `m(line) <= w` is false. -/
theorem wordWrap_nan_line_unbounded :
    (∀ l ∈ Split "a b".toList, ∀ c ∈ l.head?, isSpace c = false) ∧
    wordWrap nanMeasure "a b".toList (F64.num 5) = some ["a b".toList] ∧
    ¬ (nanMeasure "a b".toList ≤ F64.num 5) ∧
    ' ' ∈ "a b".toList ∧ isSpace ' ' = true := by decide

/-- C19 (amended): when no logical line begins with whitespace, for every
measure and width, with no law assumed of the comparison (NaN included),
every emitted line with more than one word is a string for which the test
`m(line) > w` is false, so for every emitted line that test is false or the
line contains no whitespace. -/
theorem wordWrap_not_over_width {β : Type} [LT β] [DecidableRel (α := β) (· < ·)]
    (m : Str → β) (w : β) (s : Str)
    (hlead : ∀ l ∈ Split s, ∀ c ∈ l.head?, isSpace c = false) :
    ∃ r, wordWrap m s w = some r ∧
      (∀ l ∈ r, 2 ≤ (words l).length → ¬ w < m l) ∧
      (∀ l ∈ r, ¬ w < m l ∨ ∀ c ∈ l, isSpace c = false) := by
  have hall := wordWrap_lines_width m w s hlead
  refine ⟨_, wordWrap_eq m w s, ?_, hall⟩
  intro l hl h2
  rcases hall l hl with h | h
  · exact h
  · exact absurd h2 (not_two_words l h)

/-- C19 (witness): `"aa bb cc\ndd"` under the measure that returns NaN, at
width 50. -/
theorem wordWrap_not_over_width_witness :
    ∃ r, wordWrap nanMeasure "aa bb cc\ndd".toList (F64.num 50) = some r ∧
      (∀ l ∈ r, 2 ≤ (words l).length → ¬ F64.num 50 < nanMeasure l) ∧
      (∀ l ∈ r, ¬ F64.num 50 < nanMeasure l ∨ ∀ c ∈ l, isSpace c = false) :=
  wordWrap_not_over_width nanMeasure (F64.num 50) "aa bb cc\ndd".toList (by decide)

/-- In a totally ordered type of widths (no NaN) the bound reads
`m(line) <= w`: when no logical line begins with whitespace, every emitted
line with more than one word measures at most `w`. -/
theorem wordWrap_width_total (m : Str → α) (w : α) (s : Str)
    (hlead : ∀ l ∈ Split s, ∀ c ∈ l.head?, isSpace c = false) :
    ∃ r, wordWrap m s w = some r ∧
      (∀ l ∈ r, 2 ≤ (words l).length → m l ≤ w) ∧
      (∀ l ∈ r, m l ≤ w ∨ ∀ c ∈ l, isSpace c = false) := by
  have hall := wordWrap_lines_width m w s hlead
  refine ⟨_, wordWrap_eq m w s, ?_, fun l hl => (hall l hl).imp not_lt.mp id⟩
  intro l hl h2
  rcases hall l hl with h | h
  · exact not_lt.mp h
  · exact absurd h2 (not_two_words l h)

/-- C20: `String` and `FromString` are inverse on the seven names: for
`0 <= k < 7`, `FromString(k.String())` returns nil and stores `k`; for every
string `s`, either `s` is the name of some `j < 7`, `FromString(s)` returns
nil and stores that `j`, or `s` is none of the names, an error is returned
and the receiver is unchanged; so a nil result storing `j` means
`j.String() = s`; and the rendering `Actions(n)` of an out-of-range `n` is
refused with the receiver unchanged. -/
theorem Actions_String_FromString (k : Fin 7) (i0 : Actions) (s : Str) (n : Int) :
    Actions.FromString i0 (Actions.String (k.val : Int)) = ((k.val : Int), none) ∧
    ((∃ j : Nat, j < 7 ∧ Actions.String (j : Int) = s ∧
        Actions.FromString i0 s = ((j : Int), none)) ∨
      ((∀ j : Nat, j < 7 → Actions.String (j : Int) ≠ s) ∧
        Actions.FromString i0 s = (i0, some (actionsError s)))) ∧
    ((Actions.FromString i0 s).2 ≠ none ∨
      Actions.String (Actions.FromString i0 s).1 = s) ∧
    ((0 ≤ n ∧ n < 7) ∨
      Actions.FromString i0 (Actions.String n)
        = (i0, some (actionsError (Actions.String n)))) := by
  have hlen : _Actions_index.length - 1 = 7 := rfl
  have dich : ∀ t : Str,
      (∃ j : Nat, j < 7 ∧ Actions.String (j : Int) = t ∧
        Actions.FromString i0 t = ((j : Int), none)) ∨
      ((∀ j : Nat, j < 7 → Actions.String (j : Int) ≠ t) ∧
        Actions.FromString i0 t = (i0, some (actionsError t))) := by
    intro t
    rcases fromStringLoop_spec t i0 7 0 with ⟨j, -, h2, h3, h4⟩ | ⟨h1, h2⟩
    · left
      have hj : j < 7 := by omega
      exact ⟨j, hj, by rw [String_of_lt j hj, h3], by simp only [Actions.FromString, hlen]; exact h4⟩
    · right
      refine ⟨?_, by simp only [Actions.FromString, hlen]; exact h2⟩
      intro j hj e
      rw [String_of_lt j hj] at e
      exact h1 j (Nat.zero_le j) (by omega) e.symm
  refine ⟨?_, dich s, ?_, ?_⟩
  · fin_cases k <;> rfl
  · rcases dich s with ⟨j, -, h2, h3⟩ | ⟨-, h2⟩
    · right
      rw [h3]
      exact h2
    · left
      rw [h2]
      simp
  · by_cases hr : 0 ≤ n ∧ n < 7
    · exact Or.inl hr
    · right
      have hs : Actions.String n = "Actions(".toList ++ FormatInt n ++ ")".toList := by
        have hcond : n < 0 ∨ n ≥ ((_Actions_index.length - 1 : Nat) : Int) := by
          rw [hlen]
          push_cast
          omega
        simp only [Actions.String, if_pos hcond]
      rcases dich (Actions.String n) with ⟨j, hj, h2, -⟩ | ⟨-, h2⟩
      · exfalso
        rw [String_of_lt j hj, hs] at h2
        exact rendering_ne_name (FormatInt n) j hj h2.symm
      · exact h2

end Properties

end Gi
